import Mathlib

/-!
Verification of the Black-Scholes option-chain engine of
`btc_option_chain.py`.

The pricing layer (`BlackScholes`) is embedded over the exact reals, with
the standard normal CDF `normCdf` defined as the integral of the standard
normal density, mirroring `scipy.stats.norm.cdf` / `norm.pdf`.  The strike
grid of `generate_option_chain` is embedded over the rationals, with
Python's `round` (round-half-to-even to a number of decimal places)
embedded exactly as `roundTo`.
-/

open MeasureTheory Set

/-- Standard normal density `exp(-x²/2)/√(2π)` (embedding of
`scipy.stats.norm.pdf`). -/
noncomputable def normPdf (x : ℝ) : ℝ :=
  Real.exp (-(x ^ 2) / 2) / Real.sqrt (2 * Real.pi)

/-- Standard normal cumulative distribution function (embedding of
`scipy.stats.norm.cdf`). -/
noncomputable def normCdf (x : ℝ) : ℝ :=
  ∫ t in Set.Iic x, normPdf t

theorem normPdf_nonneg (x : ℝ) : 0 ≤ normPdf x :=
  div_nonneg (Real.exp_nonneg _) (Real.sqrt_nonneg _)

theorem normPdf_pos (x : ℝ) : 0 < normPdf x :=
  div_pos (Real.exp_pos _) (Real.sqrt_pos.mpr (by positivity))

theorem normPdf_eq (x : ℝ) :
    normPdf x = (Real.sqrt (2 * Real.pi))⁻¹ * Real.exp (-(1/2) * x ^ 2) := by
  unfold normPdf
  rw [div_eq_inv_mul]
  ring_nf

theorem normPdf_neg (x : ℝ) : normPdf (-x) = normPdf x := by
  unfold normPdf
  rw [neg_sq]

theorem integrable_normPdf : Integrable normPdf := by
  have h : Integrable (fun x : ℝ =>
      (Real.sqrt (2 * Real.pi))⁻¹ * Real.exp (-(1/2) * x ^ 2)) :=
    (integrable_exp_neg_mul_sq (by norm_num)).const_mul _
  have he : (fun x : ℝ =>
      (Real.sqrt (2 * Real.pi))⁻¹ * Real.exp (-(1/2) * x ^ 2)) = normPdf := by
    funext x
    rw [normPdf_eq]
  rwa [he] at h

theorem integral_normPdf : ∫ x, normPdf x = 1 := by
  have h2π : (0 : ℝ) < 2 * Real.pi := by positivity
  have hs : Real.sqrt (2 * Real.pi) ≠ 0 := by positivity
  calc ∫ x, normPdf x
      = ∫ x, (Real.sqrt (2 * Real.pi))⁻¹ * Real.exp (-(1/2) * x ^ 2) := by
        congr 1
        funext x
        rw [normPdf_eq]
    _ = (Real.sqrt (2 * Real.pi))⁻¹ * ∫ x, Real.exp (-(1/2) * x ^ 2) :=
        integral_mul_left _ _
    _ = (Real.sqrt (2 * Real.pi))⁻¹ * Real.sqrt (Real.pi / (1/2)) := by
        rw [integral_gaussian]
    _ = 1 := by
        rw [show Real.pi / (1/2) = 2 * Real.pi by ring]
        exact inv_mul_cancel₀ hs

theorem normCdf_nonneg (x : ℝ) : 0 ≤ normCdf x :=
  setIntegral_nonneg measurableSet_Iic fun t _ => normPdf_nonneg t

theorem normCdf_le_one (x : ℝ) : normCdf x ≤ 1 := by
  have h := setIntegral_le_integral (s := Set.Iic x) integrable_normPdf
    (Filter.Eventually.of_forall normPdf_nonneg)
  rwa [integral_normPdf] at h

theorem normCdf_add_neg (x : ℝ) : normCdf x + normCdf (-x) = 1 := by
  have heven : ∀ t : ℝ, normPdf (-t) = normPdf t := fun t => normPdf_neg t
  have h1 : normCdf x = ∫ t in Set.Ioi (-x), normPdf t := by
    rw [← integral_comp_neg_Iic x normPdf]
    simp only [heven]
    rfl
  have h2 : normCdf (-x) + normCdf x = 1 := by
    rw [h1]
    unfold normCdf
    rw [intervalIntegral.integral_Iic_add_Ioi integrable_normPdf.integrableOn
      integrable_normPdf.integrableOn, integral_normPdf]
  linarith

theorem normCdf_neg (x : ℝ) : normCdf (-x) = 1 - normCdf x := by
  have := normCdf_add_neg x
  linarith

/-! ### The Black-Scholes pricing layer (class `BlackScholes` in the source) -/

namespace BlackScholes

/-- `BlackScholes.d1`: `(ln(S/K) + (r + 0.5·σ²)·T) / (σ·√T)`. -/
noncomputable def d1 (S K T r sigma : ℝ) : ℝ :=
  (Real.log (S / K) + (r + 0.5 * sigma ^ 2) * T) / (sigma * Real.sqrt T)

/-- `BlackScholes.d2`: `d1 - σ·√T`. -/
noncomputable def d2 (S K T r sigma : ℝ) : ℝ :=
  d1 S K T r sigma - sigma * Real.sqrt T

/-- `BlackScholes.call_price`: `S·Φ(d1) - K·e^(-rT)·Φ(d2)`. -/
noncomputable def call_price (S K T r sigma : ℝ) : ℝ :=
  S * normCdf (d1 S K T r sigma) -
    K * Real.exp (-r * T) * normCdf (d2 S K T r sigma)

/-- `BlackScholes.put_price`: `K·e^(-rT)·Φ(-d2) - S·Φ(-d1)`. -/
noncomputable def put_price (S K T r sigma : ℝ) : ℝ :=
  K * Real.exp (-r * T) * normCdf (-(d2 S K T r sigma)) -
    S * normCdf (-(d1 S K T r sigma))

/-- `BlackScholes.call_delta`: `Φ(d1)`. -/
noncomputable def call_delta (S K T r sigma : ℝ) : ℝ :=
  normCdf (d1 S K T r sigma)

/-- `BlackScholes.put_delta`: `Φ(d1) - 1`. -/
noncomputable def put_delta (S K T r sigma : ℝ) : ℝ :=
  normCdf (d1 S K T r sigma) - 1

/-- `BlackScholes.gamma`: `φ(d1) / (S·σ·√T)`. -/
noncomputable def gamma (S K T r sigma : ℝ) : ℝ :=
  normPdf (d1 S K T r sigma) / (S * sigma * Real.sqrt T)

end BlackScholes

/-- Claim C1: put-call parity.  For every input with `spot > 0`,
`strike > 0`, `volatility > 0` and `timeToExpiry > 0`,
`call_price - put_price = spot - strike·e^(-r·T)` holds exactly in the
exact-real embedding. -/
theorem C1_put_call_parity (S K T r sigma : ℝ)
    (_hS : 0 < S) (_hK : 0 < K) (_hsigma : 0 < sigma) (_hT : 0 < T) :
    BlackScholes.call_price S K T r sigma -
      BlackScholes.put_price S K T r sigma =
      S - K * Real.exp (-r * T) := by
  unfold BlackScholes.call_price BlackScholes.put_price
  rw [normCdf_neg (BlackScholes.d1 S K T r sigma),
    normCdf_neg (BlackScholes.d2 S K T r sigma)]
  ring

/-- Witness for C1 at `S = 2, K = 1, T = 1, r = 0, σ = 1`. -/
theorem C1_put_call_parity_witness :
    (0 : ℝ) < 2 ∧ (0 : ℝ) < 1 ∧
      BlackScholes.call_price 2 1 1 0 1 - BlackScholes.put_price 2 1 1 0 1 =
        2 - 1 * Real.exp (-0 * 1) :=
  ⟨by norm_num, by norm_num,
    C1_put_call_parity 2 1 1 0 1 (by norm_num) (by norm_num) (by norm_num)
      (by norm_num)⟩

/-- Claim C4: delta bounds and identity.  For valid inputs,
`callDelta ∈ [0,1]`, `putDelta ∈ [-1,0]` and `callDelta - putDelta = 1`. -/
theorem C4_delta_bounds (S K T r sigma : ℝ)
    (_hS : 0 < S) (_hK : 0 < K) (_hsigma : 0 < sigma) (_hT : 0 < T) :
    0 ≤ BlackScholes.call_delta S K T r sigma ∧
      BlackScholes.call_delta S K T r sigma ≤ 1 ∧
      -1 ≤ BlackScholes.put_delta S K T r sigma ∧
      BlackScholes.put_delta S K T r sigma ≤ 0 ∧
      BlackScholes.call_delta S K T r sigma -
        BlackScholes.put_delta S K T r sigma = 1 := by
  unfold BlackScholes.call_delta BlackScholes.put_delta
  have h0 := normCdf_nonneg (BlackScholes.d1 S K T r sigma)
  have h1 := normCdf_le_one (BlackScholes.d1 S K T r sigma)
  refine ⟨h0, h1, by linarith, by linarith, by ring⟩

/-- Witness for C4 at `S = 2, K = 1, T = 1, r = 0, σ = 1`. -/
theorem C4_delta_bounds_witness :
    (0 : ℝ) < 2 ∧ (0 : ℝ) < 1 ∧
      (0 ≤ BlackScholes.call_delta 2 1 1 0 1 ∧
        BlackScholes.call_delta 2 1 1 0 1 ≤ 1 ∧
        -1 ≤ BlackScholes.put_delta 2 1 1 0 1 ∧
        BlackScholes.put_delta 2 1 1 0 1 ≤ 0 ∧
        BlackScholes.call_delta 2 1 1 0 1 -
          BlackScholes.put_delta 2 1 1 0 1 = 1) :=
  ⟨by norm_num, by norm_num,
    C4_delta_bounds 2 1 1 0 1 (by norm_num) (by norm_num) (by norm_num)
      (by norm_num)⟩

/-! ### The strike grid of `generate_option_chain`, over the rationals

Python's builtin `round(x, d)` rounds half to even; `roundTo` embeds it
exactly over `ℚ`. -/

/-- Round a rational to the nearest integer, ties to even (the rounding
mode of Python's builtin `round`). -/
def roundHalfEvenInt (q : ℚ) : ℤ :=
  if q - ⌊q⌋ < 1/2 then ⌊q⌋
  else if 1/2 < q - ⌊q⌋ then ⌊q⌋ + 1
  else if ⌊q⌋ % 2 = 0 then ⌊q⌋ else ⌊q⌋ + 1

/-- `roundTo d q` embeds Python's `round(q, d)`. -/
def roundTo (d : ℕ) (q : ℚ) : ℚ :=
  (roundHalfEvenInt (q * 10 ^ d) : ℚ) / 10 ^ d

/-- The strike-grid loop of `generate_option_chain`: for
`i in range(-num_strikes, num_strikes + 1)` the raw strike is
`spot + i * (spot * 0.025)`, rounded to 4 decimals when `spot < 10` and to
2 decimals otherwise. -/
def strike_list (spot : ℚ) (num_strikes : ℕ) : List ℚ :=
  (List.range (2 * num_strikes + 1)).map fun (j : ℕ) =>
    let strike := spot + ((j : ℤ) - (num_strikes : ℤ) : ℚ) * (spot * 0.025)
    if spot < 10 then roundTo 4 strike else roundTo 2 strike

theorem le_roundHalfEvenInt (q : ℚ) : q - 1/2 ≤ (roundHalfEvenInt q : ℚ) := by
  unfold roundHalfEvenInt
  have hfl : (⌊q⌋ : ℚ) ≤ q := Int.floor_le q
  have hfu : q < (⌊q⌋ : ℚ) + 1 := Int.lt_floor_add_one q
  split
  · push_cast
    linarith
  · split
    · push_cast
      linarith
    · split
      · push_cast
        linarith
      · push_cast
        linarith

theorem roundHalfEvenInt_le (q : ℚ) : (roundHalfEvenInt q : ℚ) ≤ q + 1/2 := by
  unfold roundHalfEvenInt
  have hfl : (⌊q⌋ : ℚ) ≤ q := Int.floor_le q
  have hfu : q < (⌊q⌋ : ℚ) + 1 := Int.lt_floor_add_one q
  split
  · push_cast
    linarith
  · rename_i h1
    push_neg at h1
    split
    · rename_i h2
      push_cast
      linarith
    · split
      · push_cast
        linarith
      · push_cast
        linarith

theorem roundHalfEvenInt_lt {p q : ℚ} (h : q + 1 < p) :
    roundHalfEvenInt q < roundHalfEvenInt p := by
  have h1 := roundHalfEvenInt_le q
  have h2 := le_roundHalfEvenInt p
  have h3 : (roundHalfEvenInt q : ℚ) < (roundHalfEvenInt p : ℚ) := by linarith
  exact_mod_cast h3

theorem roundTo_lt {d : ℕ} {p q : ℚ} (h : q * 10 ^ d + 1 < p * 10 ^ d) :
    roundTo d q < roundTo d p := by
  unfold roundTo
  have hpow : (0 : ℚ) < 10 ^ d := by positivity
  have h3 : (roundHalfEvenInt (q * 10 ^ d) : ℚ) <
      (roundHalfEvenInt (p * 10 ^ d) : ℚ) := by
    exact_mod_cast roundHalfEvenInt_lt h
  exact div_lt_div_of_pos_right h3 hpow

/-- One row of the option chain: the dict appended to `chain_data` in
`generate_option_chain`. -/
structure ChainRow where
  call_prob_itm : ℝ
  call_price : ℝ
  call_delta : ℝ
  strike : ℚ
  put_price : ℝ
  put_delta : ℝ
  put_prob_itm : ℝ
  gamma : ℝ
  itm_call : Bool
  itm_put : Bool

/-- The body of the `for K in strikes` loop of `generate_option_chain`:
one row computed from the shared inputs and the strike `K`. -/
noncomputable def mkRow (spot : ℚ) (T r iv : ℝ) (K : ℚ) : ChainRow :=
  { call_prob_itm := |BlackScholes.call_delta spot K T r iv| * 100
    call_price := BlackScholes.call_price spot K T r iv
    call_delta := BlackScholes.call_delta spot K T r iv
    strike := K
    put_price := BlackScholes.put_price spot K T r iv
    put_delta := BlackScholes.put_delta spot K T r iv
    put_prob_itm := |BlackScholes.put_delta spot K T r iv| * 100
    gamma := BlackScholes.gamma spot K T r iv
    itm_call := decide (K < spot)
    itm_put := decide (spot < K) }

/-- `generate_option_chain(spot_price, iv, days_to_expiry, risk_free_rate,
num_strikes)`: `T = days_to_expiry / 365.0`, then one `mkRow` per strike of
`strike_list`. -/
noncomputable def generate_option_chain (spot_price : ℚ) (iv : ℝ)
    (days_to_expiry : ℕ) (risk_free_rate : ℝ) (num_strikes : ℕ) :
    List ChainRow :=
  (strike_list spot_price num_strikes).map
    (mkRow spot_price ((days_to_expiry : ℝ) / 365) risk_free_rate iv)

theorem strike_list_length (spot : ℚ) (n : ℕ) :
    (strike_list spot n).length = 2 * n + 1 := by
  unfold strike_list
  rw [List.length_map, List.length_range]

theorem generate_option_chain_length (spot : ℚ) (iv : ℝ) (days : ℕ)
    (r : ℝ) (n : ℕ) :
    (generate_option_chain spot iv days r n).length = 2 * n + 1 := by
  unfold generate_option_chain
  rw [List.length_map, strike_list_length]

theorem strike_list_pairwise (spot : ℚ) (n : ℕ) (hs : 1/250 < spot) :
    List.Pairwise (fun a b : ℚ => a < b) (strike_list spot n) := by
  unfold strike_list
  rw [List.pairwise_map]
  refine List.Pairwise.imp ?_ (List.pairwise_lt_range (2 * n + 1))
  intro j k hjk
  dsimp only
  have hkj : (1 : ℚ) ≤ (k : ℚ) - (j : ℚ) := by
    have h1 : (j : ℚ) + 1 ≤ (k : ℚ) := by exact_mod_cast hjk
    linarith
  have hsp : (0 : ℚ) < spot := by linarith
  by_cases h10 : spot < 10
  · rw [if_pos h10, if_pos h10]
    apply roundTo_lt
    have h4 : (1 : ℚ) * (250 * spot) ≤ ((k : ℚ) - (j : ℚ)) * (250 * spot) :=
      mul_le_mul_of_nonneg_right hkj (by linarith)
    push_cast
    nlinarith [h4]
  · rw [if_neg h10, if_neg h10]
    apply roundTo_lt
    have h10b : (10 : ℚ) ≤ spot := not_lt.mp h10
    have h4 : (1 : ℚ) * (5/2 * spot) ≤ ((k : ℚ) - (j : ℚ)) * (5/2 * spot) :=
      mul_le_mul_of_nonneg_right hkj (by linarith)
    push_cast
    nlinarith [h4]

theorem roundHalfEvenInt_intCast (n : ℤ) : roundHalfEvenInt (n : ℚ) = n := by
  unfold roundHalfEvenInt
  rw [Int.floor_intCast]
  norm_num

theorem roundHalfEvenInt_of_lt (q : ℚ) (n : ℤ) (h1 : (n : ℚ) ≤ q)
    (h2 : q < n + 1) (h3 : q - n < 1/2) : roundHalfEvenInt q = n := by
  have hf : ⌊q⌋ = n := Int.floor_eq_iff.mpr ⟨h1, h2⟩
  unfold roundHalfEvenInt
  rw [hf, if_pos h3]

theorem roundHalfEvenInt_of_gt (q : ℚ) (n : ℤ) (h1 : (n : ℚ) ≤ q)
    (h2 : q < n + 1) (h3 : 1/2 < q - n) : roundHalfEvenInt q = n + 1 := by
  have hf : ⌊q⌋ = n := Int.floor_eq_iff.mpr ⟨h1, h2⟩
  unfold roundHalfEvenInt
  rw [hf, if_neg (by linarith), if_pos h3]

theorem roundTo_eq_intCast (d : ℕ) (q : ℚ) (n : ℤ) (h : q * 10 ^ d = (n : ℚ)) :
    roundTo d q = (n : ℚ) / 10 ^ d := by
  unfold roundTo
  rw [h, roundHalfEvenInt_intCast]

theorem roundTo_eval_lt (d : ℕ) (q p : ℚ) (n : ℤ) (hq : q * 10 ^ d = p)
    (h1 : (n : ℚ) ≤ p) (h2 : p < n + 1) (h3 : p - n < 1/2) :
    roundTo d q = (n : ℚ) / 10 ^ d := by
  unfold roundTo
  rw [hq, roundHalfEvenInt_of_lt p n h1 h2 h3]

theorem roundTo_eval_gt (d : ℕ) (q p : ℚ) (n : ℤ) (hq : q * 10 ^ d = p)
    (h1 : (n : ℚ) ≤ p) (h2 : p < n + 1) (h3 : 1/2 < p - n) :
    roundTo d q = ((n + 1 : ℤ) : ℚ) / 10 ^ d := by
  unfold roundTo
  rw [hq, roundHalfEvenInt_of_gt p n h1 h2 h3]

theorem strike_list_scenA :
    strike_list 50000 2 = [47500, 48750, 50000, 51250, 52500] := by
  unfold strike_list
  simp only [show (2 : ℕ) * 2 + 1 = 5 by norm_num, List.range_succ,
    List.range_zero, List.map_append, List.map_cons, List.map_nil,
    List.nil_append, List.cons_append, List.append_nil]
  simp only [if_neg (show ¬ (50000 : ℚ) < 10 by norm_num)]
  rw [roundTo_eq_intCast 2 _ 4750000 (by push_cast; norm_num),
    roundTo_eq_intCast 2 _ 4875000 (by push_cast; norm_num),
    roundTo_eq_intCast 2 _ 5000000 (by push_cast; norm_num),
    roundTo_eq_intCast 2 _ 5125000 (by push_cast; norm_num),
    roundTo_eq_intCast 2 _ 5250000 (by push_cast; norm_num)]
  norm_num

theorem strike_list_scenB :
    strike_list 1.5 1 = [1.4625, 1.5, 1.5375] := by
  unfold strike_list
  simp only [show (2 : ℕ) * 1 + 1 = 3 by norm_num, List.range_succ,
    List.range_zero, List.map_append, List.map_cons, List.map_nil,
    List.nil_append, List.cons_append, List.append_nil]
  simp only [if_pos (show (1.5 : ℚ) < 10 by norm_num)]
  rw [roundTo_eq_intCast 4 _ 14625 (by push_cast; norm_num),
    roundTo_eq_intCast 4 _ 15000 (by push_cast; norm_num),
    roundTo_eq_intCast 4 _ 15375 (by push_cast; norm_num)]
  norm_num

theorem strike_list_tiny :
    strike_list (1/1000) 1 = [1/1000, 1/1000, 1/1000] := by
  unfold strike_list
  simp only [show (2 : ℕ) * 1 + 1 = 3 by norm_num, List.range_succ,
    List.range_zero, List.map_append, List.map_cons, List.map_nil,
    List.nil_append, List.cons_append, List.append_nil]
  simp only [if_pos (show (1/1000 : ℚ) < 10 by norm_num)]
  rw [roundTo_eval_gt 4 _ 9.75 9 (by push_cast; norm_num) (by norm_num)
      (by norm_num) (by norm_num),
    roundTo_eq_intCast 4 _ 10 (by push_cast; norm_num),
    roundTo_eval_lt 4 _ 10.25 10 (by push_cast; norm_num) (by norm_num)
      (by norm_num) (by norm_num)]
  norm_num

/-- Claim C3 (amended): for every `spot > 1/250` and positive `numStrikes`,
the chain has exactly `2*N+1` rows and the rows are strictly ascending by
strike.  (As stated over every `spot > 0` the claim fails: for very small
spots the rounding grid is coarser than the strike spacing and strikes
collapse; see the counterexample.) -/
theorem C3_grid_count_and_order (spot : ℚ) (iv : ℝ) (days : ℕ) (r : ℝ)
    (n : ℕ) (hs : 1/250 < spot) (_hn : 0 < n) :
    (generate_option_chain spot iv days r n).length = 2 * n + 1 ∧
      List.Pairwise (fun a b : ChainRow => a.strike < b.strike)
        (generate_option_chain spot iv days r n) := by
  refine ⟨generate_option_chain_length spot iv days r n, ?_⟩
  unfold generate_option_chain
  rw [List.pairwise_map]
  exact (strike_list_pairwise spot n hs).imp (fun h => h)

/-- Witness for C3 at Scenario A inputs. -/
theorem C3_grid_count_and_order_witness :
    (1 : ℚ)/250 < 50000 ∧ 0 < 2 ∧
      ((generate_option_chain 50000 0.65 30 0.05 2).length = 2 * 2 + 1 ∧
        List.Pairwise (fun a b : ChainRow => a.strike < b.strike)
          (generate_option_chain 50000 0.65 30 0.05 2)) :=
  ⟨by norm_num, by norm_num,
    C3_grid_count_and_order 50000 0.65 30 0.05 2 (by norm_num) (by norm_num)⟩

/-- Counterexample to C3 as stated: at `spot = 1/1000 > 0` (with
`numStrikes = 1`) all three strikes round to `1/1000`, so the chain is not
strictly ascending by strike. -/
theorem C3_counterexample :
    (0 : ℚ) < 1/1000 ∧
      ¬ List.Pairwise (fun a b : ChainRow => a.strike < b.strike)
        (generate_option_chain (1/1000) 0.9 7 0 1) := by
  refine ⟨by norm_num, fun h => ?_⟩
  unfold generate_option_chain at h
  rw [List.pairwise_map, strike_list_tiny] at h
  have h1 := (List.pairwise_cons.mp h).1 (1/1000) (by simp)
  exact lt_irrefl _ h1

/-- Claim C2 (amended): the engine performs no input validation at all.
For every input, including `volatility ≤ 0`, `generate_option_chain`
returns a full chain of `2*numStrikes+1` rows whose deltas are
normal-CDF evaluations; it never rejects and never returns an empty
chain.  (In IEEE floating point those rows contain non-finite values when
`volatility = 0`; the exact-real embedding makes the zero-denominator
`d1` a total expression.) -/
theorem C2_no_validation (spot : ℚ) (iv : ℝ) (days : ℕ) (r : ℝ) (n : ℕ) :
    (generate_option_chain spot iv days r n).length = 2 * n + 1 ∧
      ∀ row ∈ generate_option_chain spot iv days r n,
        row.call_delta =
          normCdf (BlackScholes.d1 spot row.strike ((days : ℝ) / 365) r iv) := by
  refine ⟨generate_option_chain_length spot iv days r n, ?_⟩
  intro row hrow
  unfold generate_option_chain at hrow
  obtain ⟨K, _hK, rfl⟩ := List.mem_map.mp hrow
  rfl

/-- Witness for C2 at the invalid input `volatility = 0` of Scenario C. -/
theorem C2_no_validation_witness :
    (generate_option_chain 50000 0 30 0.05 2).length = 2 * 2 + 1 ∧
      (mkRow 50000 (((30 : ℕ) : ℝ) / 365) 0.05 0 47500).call_delta =
        normCdf (BlackScholes.d1 50000
          ((mkRow 50000 (((30 : ℕ) : ℝ) / 365) 0.05 0 47500).strike : ℚ)
          (((30 : ℕ) : ℝ) / 365) 0.05 0) := by
  refine ⟨(C2_no_validation 50000 0 30 0.05 2).1, ?_⟩
  refine (C2_no_validation 50000 0 30 0.05 2).2 _ ?_
  unfold generate_option_chain
  refine List.mem_map_of_mem _ ?_
  rw [strike_list_scenA]
  simp

/-- Counterexample to C2 as stated: with `volatility = 0` the engine does
not reject the input; it produces the full 5-row chain. -/
theorem C2_counterexample :
    (generate_option_chain 50000 0 30 0.05 2).length = 5 ∧
      generate_option_chain 50000 0 30 0.05 2 ≠ [] := by
  have h := generate_option_chain_length 50000 0 30 0.05 2
  refine ⟨by rw [h], fun he => ?_⟩
  rw [he] at h
  simp at h

/-- Claim C5: ITM classification is strict and exclusive.  For every row
of every generated chain, `itm_call` holds exactly when `spot > strike`,
`itm_put` exactly when `spot < strike`; at `strike = spot` both are
false, and at `strike ≠ spot` exactly one holds. -/
theorem C5_itm_strict (spot : ℚ) (iv : ℝ) (days : ℕ) (r : ℝ) (n : ℕ) :
    ∀ row ∈ generate_option_chain spot iv days r n,
      (row.itm_call = true ↔ row.strike < spot) ∧
      (row.itm_put = true ↔ spot < row.strike) ∧
      (row.strike = spot → row.itm_call = false ∧ row.itm_put = false) ∧
      (row.strike ≠ spot →
        ((row.itm_call = true ∧ row.itm_put = false) ∨
          (row.itm_call = false ∧ row.itm_put = true))) := by
  intro row hrow
  unfold generate_option_chain at hrow
  obtain ⟨K, _hK, rfl⟩ := List.mem_map.mp hrow
  simp only [mkRow]
  refine ⟨by simp, by simp, ?_, ?_⟩
  · intro hKs
    subst hKs
    simp
  · intro hne
    rcases lt_trichotomy K spot with h | h | h
    · left
      simp [h, not_lt.mpr h.le]
    · exact absurd h hne
    · right
      simp [h, not_lt.mpr h.le]

/-- Witness for C5: the row at strike 47500 in the Scenario A chain. -/
theorem C5_itm_strict_witness :
    (mkRow 50000 (((30 : ℕ) : ℝ) / 365) 0.05 0.65 47500).itm_call = true ∧
      (mkRow 50000 (((30 : ℕ) : ℝ) / 365) 0.05 0.65 47500).itm_put = false := by
  have hmem : mkRow 50000 (((30 : ℕ) : ℝ) / 365) 0.05 0.65 47500 ∈
      generate_option_chain 50000 0.65 30 0.05 2 := by
    unfold generate_option_chain
    refine List.mem_map_of_mem _ ?_
    rw [strike_list_scenA]
    simp
  have h := (C5_itm_strict 50000 0.65 30 0.05 2 _ hmem).2.2.2
  refine (h (by norm_num [mkRow])).resolve_right ?_
  intro hcontra
  have := hcontra.1
  simp [mkRow] at this
  norm_num at this

/-- Claim C6: grid construction formula and Scenario A.  The `j`-th entry
of the grid is `spot + (j - numStrikes)·(spot·0.025)` rounded by the spot
policy; for Scenario A the chain has 5 rows with strikes exactly
`[47500, 48750, 50000, 51250, 52500]`, the center strike is exactly
50000, and the center row is neither call- nor put-ITM. -/
theorem C6_grid_formula :
    (∀ (spot : ℚ) (n j : ℕ), j < 2 * n + 1 →
      (strike_list spot n)[j]? = some
        (if spot < 10 then
          roundTo 4 (spot + ((j : ℤ) - (n : ℤ) : ℚ) * (spot * 0.025))
        else roundTo 2 (spot + ((j : ℤ) - (n : ℤ) : ℚ) * (spot * 0.025)))) ∧
    strike_list 50000 2 = [47500, 48750, 50000, 51250, 52500] ∧
    (strike_list 50000 2)[2]? = some 50000 ∧
    (generate_option_chain 50000 0.65 30 0.05 2).length = 5 ∧
    (∀ row ∈ generate_option_chain 50000 0.65 30 0.05 2,
      row.strike = 50000 → row.itm_call = false ∧ row.itm_put = false) := by
  refine ⟨?_, strike_list_scenA, ?_, ?_, ?_⟩
  · intro spot n j hj
    unfold strike_list
    rw [List.getElem?_map, List.getElem?_range hj]
    rfl
  · rw [strike_list_scenA]
    rfl
  · rw [generate_option_chain_length]
  · intro row hrow hstrike
    unfold generate_option_chain at hrow
    obtain ⟨K, _hK, rfl⟩ := List.mem_map.mp hrow
    simp only [mkRow] at hstrike ⊢
    subst hstrike
    simp

/-- Witness for C6: the center index `j = 2` of the Scenario A grid, and
the center row of the Scenario A chain. -/
theorem C6_grid_formula_witness :
    (2 : ℕ) < 2 * 2 + 1 ∧
      (strike_list 50000 2)[2]? = some
        (if (50000 : ℚ) < 10 then
          roundTo 4 (50000 + (((2 : ℕ) : ℤ) - ((2 : ℕ) : ℤ) : ℚ) * (50000 * 0.025))
        else roundTo 2 (50000 + (((2 : ℕ) : ℤ) - ((2 : ℕ) : ℤ) : ℚ) * (50000 * 0.025))) ∧
      ((mkRow 50000 (((30 : ℕ) : ℝ) / 365) 0.05 0.65 50000).itm_call = false ∧
        (mkRow 50000 (((30 : ℕ) : ℝ) / 365) 0.05 0.65 50000).itm_put = false) := by
  refine ⟨by norm_num, C6_grid_formula.1 50000 2 2 (by norm_num), ?_⟩
  have hmem : mkRow 50000 (((30 : ℕ) : ℝ) / 365) 0.05 0.65 50000 ∈
      generate_option_chain 50000 0.65 30 0.05 2 := by
    unfold generate_option_chain
    refine List.mem_map_of_mem _ ?_
    rw [strike_list_scenA]
    simp
  exact C6_grid_formula.2.2.2.2 _ hmem rfl

/-- Claim C7: rounding policy.  Every strike of a sub-10 spot chain is the
raw strike rounded to 4 decimal places, every strike of a spot ≥ 10 chain
is rounded to 2 decimal places, and Scenario B produces exactly
`[1.4625, 1.5, 1.5375]`. -/
theorem C7_rounding_policy :
    (∀ (spot : ℚ) (n : ℕ), spot < 10 → ∀ K ∈ strike_list spot n,
      ∃ i : ℤ, -(n : ℤ) ≤ i ∧ i ≤ (n : ℤ) ∧
        K = roundTo 4 (spot + (i : ℚ) * (spot * 0.025))) ∧
    (∀ (spot : ℚ) (n : ℕ), ¬ spot < 10 → ∀ K ∈ strike_list spot n,
      ∃ i : ℤ, -(n : ℤ) ≤ i ∧ i ≤ (n : ℤ) ∧
        K = roundTo 2 (spot + (i : ℚ) * (spot * 0.025))) ∧
    strike_list 1.5 1 = [1.4625, 1.5, 1.5375] := by
  refine ⟨?_, ?_, strike_list_scenB⟩
  · intro spot n h10 K hK
    unfold strike_list at hK
    obtain ⟨j, hj, rfl⟩ := List.mem_map.mp hK
    have hj5 : j < 2 * n + 1 := List.mem_range.mp hj
    refine ⟨(j : ℤ) - (n : ℤ), by omega, by omega, ?_⟩
    simp only [if_pos h10]
    congr 1
    push_cast
    ring
  · intro spot n h10 K hK
    unfold strike_list at hK
    obtain ⟨j, hj, rfl⟩ := List.mem_map.mp hK
    have hj5 : j < 2 * n + 1 := List.mem_range.mp hj
    refine ⟨(j : ℤ) - (n : ℤ), by omega, by omega, ?_⟩
    simp only [if_neg h10]
    congr 1
    push_cast
    ring

/-- Witness for C7: the first Scenario B strike, 1.4625, is a 4-decimal
rounding of a raw grid point. -/
theorem C7_rounding_policy_witness :
    (1.5 : ℚ) < 10 ∧ (1.4625 : ℚ) ∈ strike_list 1.5 1 ∧
      ∃ i : ℤ, -(1 : ℤ) ≤ i ∧ i ≤ (1 : ℤ) ∧
        (1.4625 : ℚ) = roundTo 4 (1.5 + (i : ℚ) * (1.5 * 0.025)) := by
  have hmem : (1.4625 : ℚ) ∈ strike_list 1.5 1 := by
    rw [strike_list_scenB]
    simp
  exact ⟨by norm_num, hmem,
    C7_rounding_policy.1 1.5 1 (by norm_num) 1.4625 hmem⟩

/-- Claim C8: gamma formula, positivity, and call/put symmetry.  For valid
inputs `gamma = φ(d1)/(S·σ·√T)`, `gamma ≥ 0`, and each chain row carries a
single gamma computed once from the shared inputs (hence identical for
the call and the put side). -/
theorem C8_gamma (S K T r sigma : ℝ) (spotq Kq : ℚ)
    (hS : 0 < S) (_hK : 0 < K) (hsigma : 0 < sigma) (_hT : 0 < T) :
    BlackScholes.gamma S K T r sigma =
      normPdf (BlackScholes.d1 S K T r sigma) / (S * sigma * Real.sqrt T) ∧
    0 ≤ BlackScholes.gamma S K T r sigma ∧
    (mkRow spotq T r sigma Kq).gamma = BlackScholes.gamma spotq Kq T r sigma := by
  refine ⟨rfl, ?_, rfl⟩
  unfold BlackScholes.gamma
  exact div_nonneg (normPdf_nonneg _)
    (mul_nonneg (mul_nonneg hS.le hsigma.le) (Real.sqrt_nonneg T))

/-- Witness for C8 at `S = K = 1, T = 1, r = 0, σ = 1` and the rational
row inputs `spot = 1, strike = 1`. -/
theorem C8_gamma_witness :
    (0 : ℝ) < 1 ∧
      (BlackScholes.gamma 1 1 1 0 1 =
          normPdf (BlackScholes.d1 1 1 1 0 1) / (1 * 1 * Real.sqrt 1) ∧
        0 ≤ BlackScholes.gamma 1 1 1 0 1 ∧
        (mkRow 1 1 0 1 1).gamma = BlackScholes.gamma ((1 : ℚ) : ℝ) ((1 : ℚ) : ℝ) 1 0 1) :=
  ⟨by norm_num,
    C8_gamma 1 1 1 0 1 1 1 (by norm_num) (by norm_num) (by norm_num)
      (by norm_num)⟩

/-- Modelled from the spec: the one-touch probability estimator of the
second variant, `touchProbability(callProbITM) = min(callProbITM * 2, 99)`.
The variant exposing it is not part of the single source file of this
repository; the definition follows the formula given in the spec. -/
def touchProbability (callProbITM : ℚ) : ℚ :=
  min (callProbITM * 2) 99

/-- Claim C9: `touchProbability p = min (p*2) 99` for every `p`, and in
particular `touchProbability 60 = min 120 99 = 99`. -/
theorem C9_touch_probability :
    (∀ p : ℚ, touchProbability p = min (p * 2) 99) ∧
      touchProbability 60 = 99 := by
  refine ⟨fun p => rfl, ?_⟩
  unfold touchProbability
  rw [min_eq_right (by norm_num : (99 : ℚ) ≤ 60 * 2)]

/-- Claim C10: probability-of-ITM complement invariant.  For every row of
every chain generated from positive inputs, `callProbITM = callDelta·100`
exactly, `putProbITM = (1 - Φ(d1))·100`, and the two sum to 100. -/
theorem C10_prob_complement (spot : ℚ) (iv : ℝ) (days : ℕ) (r : ℝ) (n : ℕ)
    (_hspot : 0 < spot) (_hiv : 0 < iv) (_hdays : 0 < days) :
    ∀ row ∈ generate_option_chain spot iv days r n,
      row.call_prob_itm = row.call_delta * 100 ∧
      row.put_prob_itm =
        (1 - normCdf (BlackScholes.d1 spot row.strike ((days : ℝ) / 365) r iv)) * 100 ∧
      row.call_prob_itm + row.put_prob_itm = 100 := by
  intro row hrow
  unfold generate_option_chain at hrow
  obtain ⟨K, _hK, rfl⟩ := List.mem_map.mp hrow
  simp only [mkRow]
  have h0 := normCdf_nonneg (BlackScholes.d1 spot K ((days : ℝ) / 365) r iv)
  have h1 := normCdf_le_one (BlackScholes.d1 spot K ((days : ℝ) / 365) r iv)
  unfold BlackScholes.call_delta BlackScholes.put_delta
  rw [abs_of_nonneg h0, abs_of_nonpos (by linarith :
    normCdf (BlackScholes.d1 spot K ((days : ℝ) / 365) r iv) - 1 ≤ 0)]
  refine ⟨rfl, by ring, by ring⟩

/-- Witness for C10: the Scenario A row at strike 47500. -/
theorem C10_prob_complement_witness :
    (0 : ℚ) < 50000 ∧ (0 : ℝ) < 0.65 ∧ (0 : ℕ) < 30 ∧
      ((mkRow 50000 (((30 : ℕ) : ℝ) / 365) 0.05 0.65 47500).call_prob_itm +
        (mkRow 50000 (((30 : ℕ) : ℝ) / 365) 0.05 0.65 47500).put_prob_itm = 100) := by
  have hmem : mkRow 50000 (((30 : ℕ) : ℝ) / 365) 0.05 0.65 47500 ∈
      generate_option_chain 50000 0.65 30 0.05 2 := by
    unfold generate_option_chain
    refine List.mem_map_of_mem _ ?_
    rw [strike_list_scenA]
    simp
  exact ⟨by norm_num, by norm_num, by norm_num,
    (C10_prob_complement 50000 0.65 30 0.05 2 (by norm_num) (by norm_num)
      (by norm_num) _ hmem).2.2⟩
